import Mathlib

/-!
Verification of the export-file-to-import-file converter (`app.py`).

The development shallowly embeds the transformation pipeline of the app:

* `extract_meter_and_reading` — the header-semantics parser (app.py lines 13-45),
  including a faithful backtracking model (`mpGo`) of the Python regex
  `^(.*?)\s*\((.*?)\)$` used with `re.match` (lazy groups, `.` excludes
  newline, `$` matches at end or before one trailing newline, `\s*` greedy).
* `decompose` — the wide-to-long decomposition loop (lines 131-151):
  per column, parse the header, pair each timestamp with the value,
  drop missing values.
* `aggregate` — the `pivot_table(index=[Timestamp, Meter], columns=ReadingType,
  values=Value, aggfunc=first)` step plus the `dropna(how=all)` over reading
  columns (lines 156-176).  pandas sorts the pivot index and columns; rows
  here are kept in first-appearance order instead, which no claim depends on
  (the spec requires no output order).  pandas drops null group keys, modelled
  by filtering records with a missing timestamp.
* `unitPairsOf` / `pyDict` — the `drop_duplicates()` + `dict(zip(...))` unit
  metadata of lines 171-172 (`drop_duplicates` keeps the first occurrence of
  each distinct pair; Python `dict` lets later keys override earlier ones).
* `convertTimestamps` / `run` / `shown` — the timestamp normalization chain
  (lines 108-117), the surrounding control flow (lines 90-186) and the
  warnings/errors display gate (lines 194-209).  The library calls
  `pd.read_*` and `pd.to_datetime` are outside the repository; element-level
  timestamp parsing is therefore a parameter (`pS` strict / `pP` permissive),
  while the canonical re-formatting `strftime("%d/%m/%Y %H:%M")` is concrete
  (`fmtDT`).  Cell values are modelled by `Cell` (missing / text / number,
  numbers as `Int`; only equality of values matters to the pipeline).
-/

/-- Whitespace as matched by Python `\s` and `str.strip` (ASCII part:
space, tab, newline, carriage return, vertical tab, form feed). -/
def isPySpace (c : Char) : Bool :=
  decide (c ∈ [' ', '\t', '\n', '\r', Char.ofNat 11, Char.ofNat 12])

/-- Remove trailing whitespace (the right half of Python `str.strip`). -/
def dropTrailWsR (l : List Char) : List Char :=
  (l.reverse.dropWhile isPySpace).reverse

/-- Python `str.strip` on a character list. -/
def pyStripL (l : List Char) : List Char :=
  dropTrailWsR (l.dropWhile isPySpace)

/-- Python `str.strip`. -/
def pyStrip (s : String) : String :=
  String.mk (pyStripL s.data)

/-- Python `s.split(sep, 1)` on character lists: split at the first
occurrence of `sep`, returning `none` when `sep` does not occur
(Python `sep in s` is exactly `(splitFirstAux sep s).isSome`). -/
def splitFirstAux (sep : List Char) : List Char → Option (List Char × List Char)
  | [] => none
  | c :: rest =>
    if sep.isPrefixOf (c :: rest) then some ([], (c :: rest).drop sep.length)
    else (splitFirstAux sep rest).map (fun p => (c :: p.1, p.2))

/-- The separator `" - "` of the header grammar. -/
def sepHyphen : List Char := [' ', '-', ' ']

/-- The `$` anchor of the Python pattern: end of string, or just before a
single trailing newline. -/
def anchorOk (l : List Char) : Bool :=
  decide (l = [] ∨ l = ['\n'])

/-- Search for the lazy group `(.*?)\)$`: the shortest newline-free prefix
followed by `)` at the anchor.  Returns the captured group. -/
def findG2 : List Char → Option (List Char)
  | [] => none
  | c :: rest =>
    if c = ')' ∧ anchorOk rest then some []
    else if c = '\n' then none
    else (findG2 rest).map (fun g => c :: g)

/-- One match attempt of `\s*\((.*?)\)$` at the current position: `\s*` is
greedy but `(` is not whitespace, so the whitespace run is unique. -/
def attempt (s : List Char) : Option (List Char) :=
  match s.dropWhile isPySpace with
  | '(' :: tail => findG2 tail
  | _ => none

/-- Backtracking matcher for `re.match(r"^(.*?)\s*\((.*?)\)$", s)`:
the lazy first group grows one character at a time (never across a
newline, since `.` does not match newline), and the first success in
(group1 length, group2 length) lexicographic order is returned, exactly
as the backtracking engine does.  Returns the two captured groups. -/
def mpGo (g1rev : List Char) : List Char → Option (List Char × List Char)
  | [] =>
    match attempt [] with
    | some g2 => some (g1rev.reverse, g2)
    | none => none
  | c :: s2 =>
    match attempt (c :: s2) with
    | some g2 => some (g1rev.reverse, g2)
    | none => if c = '\n' then none else mpGo (c :: g1rev) s2

/-- app.py lines 13-45: parse a composite column header into
(meter, reading type, unit).  The underscore fallback uses
`rsplit("_", 1)`, i.e. a first-occurrence split on the reversed string;
`"_" in reading_part` holds exactly when that split succeeds. -/
def extract_meter_and_reading (column_name : String) : String × String × String :=
  match splitFirstAux sepHyphen column_name.data with
  | none => (column_name, "Unknown Reading", "Unknown Unit")
  | some pr =>
    let meter_name := pyStrip (String.mk pr.1)
    let reading_part := pyStrip (String.mk pr.2)
    match mpGo [] reading_part.data with
    | some g => (meter_name, pyStrip (String.mk g.1), pyStrip (String.mk g.2))
    | none =>
      match splitFirstAux ['_'] reading_part.data.reverse with
      | some q => (meter_name, pyStrip (String.mk q.2.reverse), pyStrip (String.mk q.1.reverse))
      | none => (meter_name, reading_part, "Unknown Unit")

/-- A cell of the loaded table: missing (pandas `NaN`), text, or a number. -/
inductive Cell where
  | na : Cell
  | str : String → Cell
  | num : Int → Cell
deriving DecidableEq, Repr

/-- One flat record of the long shape (app.py lines 138-149). -/
structure FlatRecord where
  timestamp : Cell
  meter : String
  readingType : String
  unit : String
  value : Cell
deriving DecidableEq, Repr

/-- Concatenation of a list of lists (`pd.concat` over the per-column frames). -/
def listJoin {α : Type} : List (List α) → List α
  | [] => []
  | x :: xs => x ++ listJoin xs

/-- app.py lines 131-157: for each data column, in input order, parse its
header and emit one record per row whose value is not missing. -/
def decompose (ts : List Cell) (cols : List (String × List Cell)) : List FlatRecord :=
  listJoin (cols.map (fun col =>
    (ts.zip col.2).filterMap (fun p =>
      if p.2 = Cell.na then none
      else some ⟨p.1, (extract_meter_and_reading col.1).1,
                 (extract_meter_and_reading col.1).2.1,
                 (extract_meter_and_reading col.1).2.2, p.2⟩)))

/-- Helper for `firstDedup`: drop elements already seen. -/
def firstDedupAux {α : Type} [DecidableEq α] (seen : List α) : List α → List α
  | [] => []
  | a :: l => if a ∈ seen then firstDedupAux seen l else a :: firstDedupAux (a :: seen) l

/-- Keep the first occurrence of each element (the order used by pandas
`drop_duplicates` and by first-appearance grouping). -/
def firstDedup {α : Type} [DecidableEq α] (l : List α) : List α :=
  firstDedupAux [] l

/-- Python `dict(zip(keys, values))` built by insertion: later pairs with
the same key override earlier ones. -/
def pyDict (ps : List (String × String)) : String → Option String :=
  ps.foldl (fun d p k => if k = p.1 then some p.2 else d k) (fun _ => none)

/-- The pivot key of a record: (Timestamp, Meter). -/
def keyOf (r : FlatRecord) : Cell × String :=
  (r.timestamp, r.meter)

/-- `aggfunc=first`: the value of the first record in the combined frame
with the given key and reading type (values are never missing here). -/
def firstVal (rs : List FlatRecord) (k : Cell × String) (c : String) : Option Cell :=
  (rs.find? (fun r => decide (keyOf r = k ∧ r.readingType = c))).map (fun r => r.value)

/-- One row of the pivoted output: key fields plus one cell per reading type. -/
structure OutputRow where
  timestamp : Cell
  meter : String
  readings : List (String × Option Cell)
deriving DecidableEq, Repr

/-- The pivot row for a key: one cell per reading-type column. -/
def mkRow (rs : List FlatRecord) (cs : List String) (k : Cell × String) : OutputRow :=
  ⟨k.1, k.2, cs.map (fun c => (c, firstVal rs k c))⟩

/-- Records whose pivot key is not null: pandas drops groups with a
missing (NaN) key, so records with a missing timestamp never reach a row. -/
def naFree (rs : List FlatRecord) : List FlatRecord :=
  rs.filter (fun r => decide (r.timestamp ≠ Cell.na))

/-- Distinct pivot keys, in first-appearance order. -/
def keysOf (rs : List FlatRecord) : List (Cell × String) :=
  firstDedup (rs.map keyOf)

/-- Distinct reading types, in first-appearance order. -/
def colsOf (rs : List FlatRecord) : List String :=
  firstDedup (rs.map (fun r => r.readingType))

/-- The reading-type columns of the pivoted table for a record list. -/
def ptColsOf (rs : List FlatRecord) : List String :=
  colsOf (naFree rs)

/-- The pivot rows before the all-missing filter (app.py lines 160-168). -/
def aggRows (rs : List FlatRecord) : List OutputRow :=
  (keysOf (naFree rs)).map (mkRow (naFree rs) (ptColsOf rs))

/-- app.py lines 160-176: pivot and drop rows whose reading cells are all
missing (`dropna(subset=reading_columns, how=all)`). -/
def aggregate (rs : List FlatRecord) : List OutputRow :=
  (aggRows rs).filter (fun row => row.readings.any (fun p => p.2.isSome))

/-- app.py line 171: the distinct (ReadingType, Unit) pairs of the combined
frame, first occurrence kept (`drop_duplicates`). -/
def unitPairsOf (rs : List FlatRecord) : List (String × String) :=
  firstDedup (rs.map (fun r => (r.readingType, r.unit)))

/-- app.py line 172: `unit_dict = dict(zip(...))` over those pairs. -/
def unitDict (rs : List FlatRecord) : String → Option String :=
  pyDict (unitPairsOf rs)

/-- The cell of an output row in a given reading-type column, when that
column exists (`some (some v)` observed, `some none` explicit missing). -/
def readingOf (row : OutputRow) (c : String) : Option (Option Cell) :=
  (row.readings.find? (fun p => decide (p.1 = c))).map (fun p => p.2)

/-- Re-decompose an aggregated table, treating each reading-type column as
an independent single-column decomposition keyed by the existing
Timestamp and Meter columns (no unit information remains; the unit field
does not influence aggregation). -/
def redecompose (cs : List String) (rows : List OutputRow) : List FlatRecord :=
  listJoin (cs.map (fun c =>
    rows.filterMap (fun row =>
      match readingOf row c with
      | some (some v) => some ⟨row.timestamp, row.meter, c, "Unknown Unit", v⟩
      | _ => none)))

/-- A parsed timestamp at minute granularity (the output format has no
seconds; `strftime` drops any). -/
structure DateTime where
  year : Nat
  month : Nat
  day : Nat
  hour : Nat
  minute : Nat
deriving DecidableEq, Repr

def pad2 (n : Nat) : String :=
  if n < 10 then "0" ++ toString n else toString n

def pad4 (n : Nat) : String :=
  if n < 10 then "000" ++ toString n
  else if n < 100 then "00" ++ toString n
  else if n < 1000 then "0" ++ toString n
  else toString n

/-- `strftime("%d/%m/%Y %H:%M")`: the canonical DD/MM/YYYY HH:MM form. -/
def fmtDT (d : DateTime) : String :=
  pad2 d.day ++ "/" ++ pad2 d.month ++ "/" ++ pad4 d.year ++ " " ++
    pad2 d.hour ++ ":" ++ pad2 d.minute

/-- `pd.to_datetime` over a column succeeds only when every element parses. -/
def allSome {α : Type} : List (Option α) → Option (List α)
  | [] => some []
  | none :: _ => none
  | some a :: l => (allSome l).map (fun xs => a :: xs)

def errNoTimestamp : String :=
  "Error: No Timestamp column found in the uploaded file."

def errTimestamp : String :=
  "Error converting timestamps. Ensure format is Day, Month DD, YYYY HH:MM."

def errNoValidData : String :=
  "No valid data found after processing all columns."

def errEmptyPivot : String :=
  "No valid data after pivoting. Check your input file."

def warnMultiTs (n : String) : String :=
  "Multiple timestamp-like columns found. Using " ++ n

def warnRenamed (n : String) : String :=
  "Renamed column " ++ n ++ " to Timestamp"

def warnFallback : String :=
  "Timestamp format was auto-detected. Please verify the conversion."

/-- app.py lines 107-117: strict parse of the whole column; on failure a
permissive parse with a fallback flag; on failure of both, an error and
the column is left as loaded (processing continues on it, but the
recorded error blocks the output display). -/
def convertTimestamps (pS pP : Cell → Option DateTime) (col : List Cell) :
    List Cell × Bool × Option String :=
  match allSome (col.map pS) with
  | some ds => (ds.map (fun d => Cell.str (fmtDT d)), false, none)
  | none =>
    match allSome (col.map pP) with
    | some ds => (ds.map (fun d => Cell.str (fmtDT d)), true, none)
    | none => (col, false, some errTimestamp)

/-- The loaded table: column headers with their cell columns. -/
structure RawTable where
  headers : List String
  columns : List (List Cell)
deriving Repr

def pyLower (s : String) : String :=
  String.mk (s.data.map Char.toLower)

/-- app.py line 91: a header containing "timestamp" case-insensitively. -/
def isTsHeader (h : String) : Bool :=
  (splitFirstAux ("timestamp".data) (pyLower h).data).isSome

/-- The timestamp-candidate columns, in original order. -/
def tsCands (t : RawTable) : List (String × List Cell) :=
  (t.headers.zip t.columns).filter (fun p => isTsHeader p.1)

/-- app.py line 104: rename every column carrying the chosen name. -/
def renameCols (tsName : String) (t : RawTable) : List (String × List Cell) :=
  (t.headers.zip t.columns).map
    (fun p => if p.1 = tsName then ("Timestamp", p.2) else p)

/-- app.py line 126: the data columns are all columns except "Timestamp". -/
def dataColsOf (tsName : String) (t : RawTable) : List (String × List Cell) :=
  (renameCols tsName t).filter (fun p => decide (p.1 ≠ "Timestamp"))

/-- Diagnostics and results of one conversion run.  `computed` is the
state of the `melted_df` variable (it may be set even when errors were
recorded, e.g. after a timestamp conversion error); the display gate
`shown` decides what the caller sees. -/
structure RunState where
  warnings : List String
  errors : List String
  computed : Option (List OutputRow)
  unitPairs : List (String × String)
deriving Repr

/-- app.py lines 119-186: decompose all data columns, error when nothing
was emitted, pivot, record the unit metadata, error when the pivoted
table is empty. -/
def processColumns (ts : List Cell) (cols : List (String × List Cell)) :
    List String × Option (List OutputRow) × List (String × String) :=
  let rs := decompose ts cols
  if rs = [] then ([errNoValidData], none, [])
  else
    let melted := aggregate rs
    if melted = [] then ([errEmptyPivot], some melted, unitPairsOf rs)
    else ([], some melted, unitPairsOf rs)

/-- app.py lines 90-186: one conversion run over a loaded table, with the
element-level timestamp parsers as parameters. -/
def run (pS pP : Cell → Option DateTime) (t : RawTable) : RunState :=
  match tsCands t with
  | [] => ⟨[], [errNoTimestamp], none, []⟩
  | (tsName, tsCol) :: rest =>
    let w1 := if rest = [] then [] else [warnMultiTs tsName]
    let w2 := if tsName = "Timestamp" then [] else [warnRenamed tsName]
    let conv := convertTimestamps pS pP tsCol
    let w3 := if conv.2.1 then [warnFallback] else []
    let e1 := match conv.2.2 with
      | some e => [e]
      | none => []
    let pc := processColumns conv.1 (dataColsOf tsName t)
    ⟨w1 ++ w2 ++ w3, e1 ++ pc.1, pc.2.1, pc.2.2⟩

/-- app.py lines 199-209: the output table is shown exactly when no error
was recorded. -/
def shown (st : RunState) : Option (List OutputRow) :=
  if st.errors = [] then st.computed else none

/-! ## Basic lemmas about the embedded operations -/

theorem listJoin_append {α : Type} (xs ys : List (List α)) :
    listJoin (xs ++ ys) = listJoin xs ++ listJoin ys := by
  induction xs with
  | nil => rfl
  | cons x xs ih => simp [listJoin, ih]

theorem decompose_append (ts : List Cell) (cols1 cols2 : List (String × List Cell)) :
    decompose ts (cols1 ++ cols2) = decompose ts cols1 ++ decompose ts cols2 := by
  simp [decompose, listJoin_append]

theorem mem_firstDedupAux {α : Type} [DecidableEq α] (x : α) :
    ∀ (l seen : List α), x ∈ firstDedupAux seen l ↔ x ∈ l ∧ x ∉ seen := by
  intro l
  induction l with
  | nil => intro seen; simp [firstDedupAux]
  | cons a l ih =>
    intro seen
    by_cases ha : a ∈ seen
    · have h1 : firstDedupAux seen (a :: l) = firstDedupAux seen l := by
        simp [firstDedupAux, ha]
      rw [h1, ih, List.mem_cons]
      constructor
      · rintro ⟨hx, hs⟩
        exact ⟨Or.inr hx, hs⟩
      · rintro ⟨rfl | hx, hs⟩
        · exact absurd ha hs
        · exact ⟨hx, hs⟩
    · have h1 : firstDedupAux seen (a :: l) = a :: firstDedupAux (a :: seen) l := by
        simp [firstDedupAux, ha]
      rw [h1]
      simp only [List.mem_cons, ih]
      constructor
      · rintro (rfl | ⟨hx, hs⟩)
        · exact ⟨Or.inl rfl, ha⟩
        · exact ⟨Or.inr hx, fun hc => hs (Or.inr hc)⟩
      · rintro ⟨rfl | hx, hs⟩
        · exact Or.inl rfl
        · by_cases hxa : x = a
          · exact Or.inl hxa
          · exact Or.inr ⟨hx, fun hc => hc.elim hxa hs⟩

theorem mem_firstDedup {α : Type} [DecidableEq α] (x : α) (l : List α) :
    x ∈ firstDedup l ↔ x ∈ l := by
  simp [firstDedup, mem_firstDedupAux]

theorem nodup_firstDedupAux {α : Type} [DecidableEq α] :
    ∀ (l seen : List α), (firstDedupAux seen l).Nodup := by
  intro l
  induction l with
  | nil => intro seen; simp [firstDedupAux]
  | cons a l ih =>
    intro seen
    by_cases ha : a ∈ seen
    · simpa [firstDedupAux, if_pos ha] using ih seen
    · simp only [firstDedupAux, if_neg ha]
      refine List.Nodup.cons ?_ (ih (a :: seen))
      intro hmem
      exact ((mem_firstDedupAux a l (a :: seen)).mp hmem).2 (List.mem_cons_self _ _)

theorem nodup_firstDedup {α : Type} [DecidableEq α] (l : List α) :
    (firstDedup l).Nodup :=
  nodup_firstDedupAux l []

theorem pyDict_eq_getLast (ps : List (String × String)) (k : String) :
    pyDict ps k = ((ps.filter (fun p => decide (p.1 = k))).getLast?).map Prod.snd := by
  induction ps using List.reverseRecOn with
  | nil => rfl
  | append_singleton ps p ih =>
    simp only [pyDict, List.foldl_append, List.foldl_cons, List.foldl_nil,
      List.filter_append]
    by_cases hk : k = p.1
    · simp only [if_pos hk, List.filter_cons, List.filter_nil]
      rw [show (decide (p.1 = k) = true) by simp [hk]]
      simp
    · simp only [if_neg hk, List.filter_cons, List.filter_nil]
      rw [show (decide (p.1 = k) = false) by simp; exact fun h => hk h.symm]
      simpa [pyDict] using ih

/-! ## C1: the unit-lookup mapping -/

/-- Claim C1 (amended): the unit map produced by the run does NOT keep the
first unit seen per reading type.  `drop_duplicates` keeps the first
occurrence of each distinct (reading_type, unit) PAIR, but `dict(zip(...))`
lets later pairs override earlier ones, so the map sends each reading type
to the unit of its LAST first-seen distinct pair (the most recently
introduced distinct unit), not the first. -/
theorem c1_unit_map_last_distinct_wins (rs : List FlatRecord) (k : String) :
    unitDict rs k =
      (((unitPairsOf rs).filter (fun p => decide (p.1 = k))).getLast?).map Prod.snd :=
  pyDict_eq_getLast (unitPairsOf rs) k

/-- Input table whose two data columns carry the same reading type `R`
with conflicting units `u1` (earlier column) and `u2` (later column). -/
def c1Table : RawTable :=
  ⟨["Timestamp", "A - R (u1)", "B - R (u2)"],
   [[Cell.str "x"], [Cell.num 1], [Cell.num 2]]⟩

/-- An element parser that accepts every cell (the timestamp column of
`c1Table` parses strictly, so the counterexample run is warning-free). -/
def pAlways : Cell → Option DateTime := fun _ => some ⟨2025, 3, 27, 15, 45⟩

/-- Claim C1 counterexample: in the run over `c1Table` the distinct
(reading_type, unit) pairs in first-seen column order are
[(R, u1), (R, u2)] — the first unit seen for R is u1 — yet the produced
unit lookup maps R to u2, not u1. -/
theorem c1_counterexample :
    (run pAlways pAlways c1Table).unitPairs = [("R", "u1"), ("R", "u2")] ∧
    pyDict (run pAlways pAlways c1Table).unitPairs "R" = some "u2" ∧
    some ("u2" : String) ≠ some "u1" := by
  refine ⟨by decide, by decide, by decide⟩

/-! ## C5 / C8: the header parser on degenerate input, and totality -/

/-- Claim C5: a header without the separator " - " parses to
(full header, "Unknown Reading", "Unknown Unit"), and such a column is
still decomposed into ordinary records (the run does not fail on it). -/
theorem c5_no_separator (h : String)
    (hs : splitFirstAux sepHyphen h.data = none) :
    extract_meter_and_reading h = (h, "Unknown Reading", "Unknown Unit") ∧
    ∀ (ts : List Cell) (vals : List Cell),
      decompose ts [(h, vals)] =
        (ts.zip vals).filterMap (fun p =>
          if p.2 = Cell.na then none
          else some ⟨p.1, h, "Unknown Reading", "Unknown Unit", p.2⟩) := by
  have he : extract_meter_and_reading h = (h, "Unknown Reading", "Unknown Unit") := by
    simp [extract_meter_and_reading, hs]
  refine ⟨he, fun ts vals => ?_⟩
  simp [decompose, listJoin, he]

/-- Witness for C5 at the concrete header "TotalLoad". -/
theorem c5_witness :
    splitFirstAux sepHyphen ("TotalLoad" : String).data = none ∧
    extract_meter_and_reading "TotalLoad" = ("TotalLoad", "Unknown Reading", "Unknown Unit") :=
  ⟨by decide, (c5_no_separator "TotalLoad" (by decide)).1⟩

/-- Claim C8: the header parser is a total function returning a
(meter, reading_type, unit) triple for every string, and decomposition
is per-column compositional, so one malformed header only affects its
own column and never aborts processing of the remaining columns. -/
theorem c8_parser_total_per_column :
    (∀ s : String, ∃ m rt u, extract_meter_and_reading s = (m, rt, u)) ∧
    ∀ (ts : List Cell) (cols1 cols2 : List (String × List Cell)),
      decompose ts (cols1 ++ cols2) = decompose ts cols1 ++ decompose ts cols2 :=
  ⟨fun s => ⟨(extract_meter_and_reading s).1, (extract_meter_and_reading s).2.1,
    (extract_meter_and_reading s).2.2, rfl⟩, decompose_append⟩

/-! ## Counterexamples for C3, C6 and C10 -/

/-- The timestamp column of the C3 counterexample table. -/
def c3Ts : List Cell := [Cell.str "t"]

/-- Two data columns: meter A has a value at timestamp t, meter B has
only a missing value there. -/
def c3Cols : List (String × List Cell) :=
  [("A - R (u)", [Cell.num 1]), ("B - R (u)", [Cell.na])]

/-- Claim C3 counterexample: the pair (t, B) appears in the input table
(timestamp t is in the timestamp column and B is the parsed meter of the
second data column), yet the final output contains NO row keyed by
(t, B): rows exist only for keys with at least one observed value. -/
theorem c3_counterexample :
    (extract_meter_and_reading "B - R (u)").1 = "B" ∧
    Cell.str "t" ∈ c3Ts ∧
    ("B - R (u)", [Cell.na]) ∈ c3Cols ∧
    ((aggregate (decompose c3Ts c3Cols)).filter
      (fun row => decide (row.timestamp = Cell.str "t" ∧ row.meter = "B"))).length = 0 := by
  refine ⟨by decide, by decide, by decide, by decide⟩

/-- Claim C6 counterexample: for the header "M - A (B) (C)" the remainder
"A (B) (C)" has the shape text-then-trailing-parenthesized-unit with text
"A (B)" and unit "C", but the lazy regex anchors the open parenthesis at
the FIRST "(" and the close at the last ")", so the parser returns
reading_type "A" and unit "B) (C" instead of ("A (B)", "C"). -/
theorem c6_counterexample :
    extract_meter_and_reading "M - A (B) (C)" = ("M", "A", "B) (C") ∧
    (("M", "A", "B) (C") : String × String × String) ≠ ("M", "A (B)", "C") := by
  refine ⟨by decide, by decide⟩

/-- Claim C10 counterexample: the header "M - (x) ()" has a remainder
ending in the empty parenthesized group "()", but the parser returns
unit "x) (" (the lazy match starts at the FIRST open parenthesis), not
the empty string. -/
theorem c10_counterexample :
    extract_meter_and_reading "M - (x) ()" = ("M", "", "x) (") ∧
    ("x) (" : String) ≠ "" := by
  refine ⟨by decide, by decide⟩

/-! ## C7: the errors/warnings display gate -/

theorem run_eq_nil (pS pP : Cell → Option DateTime) (t : RawTable)
    (h : tsCands t = []) :
    run pS pP t = ⟨[], [errNoTimestamp], none, []⟩ := by
  unfold run
  rw [h]

theorem run_eq_cons (pS pP : Cell → Option DateTime) (t : RawTable)
    (n : String) (c : List Cell) (rest : List (String × List Cell))
    (h : tsCands t = (n, c) :: rest) :
    run pS pP t =
      ⟨((if rest = [] then [] else [warnMultiTs n]) ++
         (if n = "Timestamp" then [] else [warnRenamed n])) ++
           (if (convertTimestamps pS pP c).2.1 then [warnFallback] else []),
       (match (convertTimestamps pS pP c).2.2 with
         | some e => [e]
         | none => []) ++
         (processColumns (convertTimestamps pS pP c).1 (dataColsOf n t)).1,
       (processColumns (convertTimestamps pS pP c).1 (dataColsOf n t)).2.1,
       (processColumns (convertTimestamps pS pP c).1 (dataColsOf n t)).2.2⟩ := by
  unfold run
  rw [h]

theorem processColumns_no_err (ts : List Cell) (cols : List (String × List Cell))
    (h : (processColumns ts cols).1 = []) :
    (processColumns ts cols).2.1 ≠ none := by
  unfold processColumns at h ⊢
  by_cases h1 : decompose ts cols = []
  · simp [h1] at h
  · by_cases h2 : aggregate (decompose ts cols) = []
    · simp [h1, h2] at h
    · simp [h1, h2]

/-- Claim C7: the run fails (no output shown) if and only if at least one
error was recorded; when the error list is empty the computed output
table is shown as is, with any warnings attached alongside. -/
theorem c7_failure_iff_errors (pS pP : Cell → Option DateTime) (t : RawTable) :
    (shown (run pS pP t) = none ↔ (run pS pP t).errors ≠ []) ∧
    ((run pS pP t).errors = [] → shown (run pS pP t) = (run pS pP t).computed) := by
  have hcomp : (run pS pP t).errors = [] → (run pS pP t).computed ≠ none := by
    cases h : tsCands t with
    | nil =>
      rw [run_eq_nil pS pP t h]
      intro he
      simp at he
    | cons p rest =>
      rw [run_eq_cons pS pP t p.1 p.2 rest (by rw [← h])]
      intro he
      have h2 : (processColumns (convertTimestamps pS pP p.2).1 (dataColsOf p.1 t)).1 = [] :=
        (List.append_eq_nil.mp he).2
      exact processColumns_no_err _ _ h2
  refine ⟨⟨fun hs he => ?_, fun he => ?_⟩, fun he => ?_⟩
  · rw [shown, if_pos he] at hs
    exact hcomp he hs
  · rw [shown, if_neg he]
  · rw [shown, if_pos he]

/-! ## C4: the strict / permissive / error timestamp chain -/

theorem allSome_none_of_mem {α : Type} {l : List (Option α)} (h : none ∈ l) :
    allSome l = none := by
  induction l with
  | nil => simp at h
  | cons a l ih =>
    cases a with
    | none => rfl
    | some v =>
      rcases List.mem_cons.mp h with h1 | h1
      · exact absurd h1.symm (by simp)
      · simp [allSome, ih h1]

theorem processColumns_no_ts_err (ts : List Cell) (cols : List (String × List Cell)) :
    errTimestamp ∉ (processColumns ts cols).1 := by
  unfold processColumns
  by_cases h1 : decompose ts cols = []
  · simp only [h1, if_pos rfl]
    intro hmem
    rcases List.mem_singleton.mp hmem with h
    exact absurd h (by decide)
  · by_cases h2 : aggregate (decompose ts cols) = []
    · simp only [h1, if_neg h1, h2, if_pos rfl]
      intro hmem
      rcases List.mem_singleton.mp hmem with h
      exact absurd h (by decide)
    · simp [h1, h2]

/-- Claim C4: the normalizer first attempts the strict parse of the whole
column; when the strict parse fails on some cell and the permissive parse
succeeds everywhere, the column is rewritten to the canonical
DD/MM/YYYY HH:MM strings, the fallback warning is recorded and no error
is recorded by this stage (so only later stages decide success); when
both parses fail, the timestamp error is recorded and no output table is
shown for the run.  Element-level parsing (`pd.to_datetime`) is a library
call, modelled by the parameters `pS` (strict) and `pP` (permissive). -/
theorem c4_timestamp_chain (pS pP : Cell → Option DateTime) (t : RawTable)
    (n : String) (c : List Cell) (rest : List (String × List Cell))
    (hc : tsCands t = (n, c) :: rest) :
    (∀ ds, allSome (c.map pS) = some ds →
       convertTimestamps pS pP c = (ds.map (fun d => Cell.str (fmtDT d)), false, none)) ∧
    ((∃ x ∈ c, pS x = none) → ∀ ds, allSome (c.map pP) = some ds →
       convertTimestamps pS pP c = (ds.map (fun d => Cell.str (fmtDT d)), true, none) ∧
       warnFallback ∈ (run pS pP t).warnings ∧
       errTimestamp ∉ (run pS pP t).errors) ∧
    ((∃ x ∈ c, pS x = none) → (∃ x ∈ c, pP x = none) →
       errTimestamp ∈ (run pS pP t).errors ∧ shown (run pS pP t) = none) := by
  refine ⟨fun ds hds => ?_, fun hS ds hds => ?_, fun hS hP => ?_⟩
  · simp [convertTimestamps, hds]
  · obtain ⟨x, hx, hxn⟩ := hS
    have hSn : allSome (c.map pS) = none :=
      allSome_none_of_mem (by exact List.mem_map.mpr ⟨x, hx, hxn⟩)
    have hconv : convertTimestamps pS pP c = (ds.map (fun d => Cell.str (fmtDT d)), true, none) := by
      simp [convertTimestamps, hSn, hds]
    refine ⟨hconv, ?_, ?_⟩
    · rw [run_eq_cons pS pP t n c rest hc]
      simp [hconv]
    · rw [run_eq_cons pS pP t n c rest hc]
      simp only [hconv]
      intro hmem
      rcases List.mem_append.mp hmem with h1 | h1
      · simp at h1
      · exact processColumns_no_ts_err _ _ h1
  · obtain ⟨x, hx, hxn⟩ := hS
    obtain ⟨y, hy, hyn⟩ := hP
    have hSn : allSome (c.map pS) = none :=
      allSome_none_of_mem (by exact List.mem_map.mpr ⟨x, hx, hxn⟩)
    have hPn : allSome (c.map pP) = none :=
      allSome_none_of_mem (by exact List.mem_map.mpr ⟨y, hy, hyn⟩)
    have hconv : convertTimestamps pS pP c = (c, false, some errTimestamp) := by
      simp [convertTimestamps, hSn, hPn]
    constructor
    · rw [run_eq_cons pS pP t n c rest hc]
      simp [hconv]
    · rw [run_eq_cons pS pP t n c rest hc, shown]
      rw [if_neg ?_]
      simp [hconv]

/-! ## Structure of the aggregation -/

/-- Every pivot row has at least one observed cell (its key comes from
some record, whose reading type gives the witness), so the defensive
`dropna(how=all)` of app.py line 176 never removes a row. -/
theorem aggregate_eq (rs : List FlatRecord) : aggregate rs = aggRows rs := by
  rw [aggregate, List.filter_eq_self]
  intro row hrow
  obtain ⟨k, hk, hkrow⟩ := List.mem_map.mp hrow
  have hk2 : k ∈ (naFree rs).map keyOf := (mem_firstDedup _ _).mp hk
  obtain ⟨r, hr, hrk⟩ := List.mem_map.mp hk2
  have hc : r.readingType ∈ ptColsOf rs := by
    rw [ptColsOf, colsOf, mem_firstDedup]
    exact List.mem_map.mpr ⟨r, hr, rfl⟩
  have hv : (firstVal (naFree rs) k r.readingType).isSome := by
    rw [firstVal, Option.isSome_map']
    rw [List.find?_isSome]
    exact ⟨r, hr, by simp [hrk]⟩
  rw [List.any_eq_true]
  refine ⟨(r.readingType, firstVal (naFree rs) k r.readingType), ?_, by simpa using hv⟩
  rw [← hkrow]
  exact List.mem_map.mpr ⟨r.readingType, hc, rfl⟩

/-- The first match in a filtered list is the first match in the original
list, provided matching elements always pass the filter. -/
theorem find?_filter_of_imp {α : Type} (l : List α) (p q : α → Bool)
    (h : ∀ x, p x = true → q x = true) :
    (l.filter q).find? p = l.find? p := by
  induction l with
  | nil => rfl
  | cons a l ih =>
    by_cases hq : q a = true
    · rw [List.filter_cons_of_pos hq]
      by_cases hp : p a = true
      · rw [List.find?_cons_of_pos _ hp, List.find?_cons_of_pos _ hp]
      · rw [List.find?_cons_of_neg _ hp, List.find?_cons_of_neg _ hp]
        exact ih
    · have hp : p a = false := by
        cases hpa : p a with
        | false => rfl
        | true => exact absurd (h a hpa) hq
      rw [List.filter_cons_of_neg hq,
        List.find?_cons_of_neg _ (by simp [hp]), ih]

/-- `find?` returns the element at the first index satisfying the predicate. -/
theorem find?_eq_get_of_min {α : Type} (p : α → Bool) :
    ∀ (l : List α) (k : Nat) (hk : k < l.length),
      (∀ j, j < k → ∀ hj : j < l.length, p (l.get ⟨j, hj⟩) = false) →
      p (l.get ⟨k, hk⟩) = true → l.find? p = some (l.get ⟨k, hk⟩) := by
  intro l
  induction l with
  | nil => intro k hk; simp at hk
  | cons a l ih =>
    intro k hk hmin hp
    cases k with
    | zero =>
      rw [List.find?_cons_of_pos _ (by simpa using hp)]
      rfl
    | succ k =>
      have ha : p a = false := hmin 0 (Nat.succ_pos k) (by simp)
      rw [List.find?_cons_of_neg _ (by simp [ha])]
      exact ih k (by simpa using hk)
        (fun j hj hjl => hmin (j + 1) (Nat.succ_lt_succ hj) (by simpa using hjl)) hp

/-- The cell of a pivot row in column `c`: present exactly when `c` is one
of the pivot columns, and then holds the first-match value. -/
theorem readingOf_mkRow (rs : List FlatRecord) (cs : List String)
    (k : Cell × String) (c : String) :
    readingOf (mkRow rs cs k) c =
      if c ∈ cs then some (firstVal rs k c) else none := by
  rw [readingOf, mkRow]
  induction cs with
  | nil => simp
  | cons a cs ih =>
    by_cases hac : a = c
    · subst hac
      rw [List.map_cons, List.find?_cons_of_pos _ (by simp)]
      simp
    · rw [List.map_cons, List.find?_cons_of_neg _ (by simp [hac])]
      rw [ih]
      by_cases hc : c ∈ cs
      · rw [if_pos hc, if_pos (List.mem_cons_of_mem _ hc)]
      · rw [if_neg hc, if_neg ?_]
        rw [List.mem_cons]
        rintro (h | h)
        · exact hac h.symm
        · exact hc h

/-! ## C2: the first-value-wins duplicate rule -/

/-- If some index satisfies a predicate, there is a minimal such index. -/
theorem exists_min_sat {α : Type} (p : α → Bool) (l : List α) :
    ∀ (i : Nat) (hi : i < l.length), p (l.get ⟨i, hi⟩) = true →
      ∃ k, ∃ hk : k < l.length, k ≤ i ∧ p (l.get ⟨k, hk⟩) = true ∧
        ∀ j, j < k → ∀ hj : j < l.length, p (l.get ⟨j, hj⟩) = false := by
  intro i
  induction i using Nat.strong_induction_on with
  | _ i ih =>
    intro hi hp
    by_cases hall : ∀ j, j < i → ∀ hj : j < l.length, p (l.get ⟨j, hj⟩) = false
    · exact ⟨i, hi, Nat.le_refl i, hp, hall⟩
    · push_neg at hall
      obtain ⟨j, hj, hjl, hpj⟩ := hall
      have hpj2 : p (l.get ⟨j, hjl⟩) = true := by
        cases h : p (l.get ⟨j, hjl⟩) with
        | true => rfl
        | false => exact absurd h hpj
      obtain ⟨k, hk, hki, h1, h2⟩ := ih j hj hjl hpj2
      exact ⟨k, hk, Nat.le_trans hki (Nat.le_of_lt hj), h1, h2⟩

/-- Claim C2: when two records at positions `i < j` of the decomposition
(which lists columns in input order and, inside each column, rows in
input order) share (timestamp, meter, reading_type) and carry different
values, the final output cell for that key holds the value of the
earliest such record — a position `k ≤ i`, before which no record
matches — so the later duplicate `j` is silently discarded, not
averaged and not reported as an error.  The timestamp is required to be
non-missing since pandas drops null pivot keys. -/
theorem c2_first_value_wins (ts : List Cell) (cols : List (String × List Cell))
    (i j : Nat) (hi : i < (decompose ts cols).length) (hj : j < (decompose ts cols).length)
    (hij : i < j)
    (hkey : keyOf ((decompose ts cols).get ⟨i, hi⟩) = keyOf ((decompose ts cols).get ⟨j, hj⟩))
    (hrt : ((decompose ts cols).get ⟨i, hi⟩).readingType
      = ((decompose ts cols).get ⟨j, hj⟩).readingType)
    (hne : ((decompose ts cols).get ⟨i, hi⟩).value ≠ ((decompose ts cols).get ⟨j, hj⟩).value)
    (hna : ((decompose ts cols).get ⟨i, hi⟩).timestamp ≠ Cell.na) :
    ∃ k, ∃ hk : k < (decompose ts cols).length, k ≤ i ∧
      keyOf ((decompose ts cols).get ⟨k, hk⟩) = keyOf ((decompose ts cols).get ⟨i, hi⟩) ∧
      ((decompose ts cols).get ⟨k, hk⟩).readingType
        = ((decompose ts cols).get ⟨i, hi⟩).readingType ∧
      (∀ l2, l2 < k → ∀ hl : l2 < (decompose ts cols).length,
        ¬(keyOf ((decompose ts cols).get ⟨l2, hl⟩) = keyOf ((decompose ts cols).get ⟨i, hi⟩) ∧
          ((decompose ts cols).get ⟨l2, hl⟩).readingType
            = ((decompose ts cols).get ⟨i, hi⟩).readingType)) ∧
      ∀ row ∈ aggregate (decompose ts cols),
        row.timestamp = ((decompose ts cols).get ⟨i, hi⟩).timestamp →
        row.meter = ((decompose ts cols).get ⟨i, hi⟩).meter →
        readingOf row (((decompose ts cols).get ⟨i, hi⟩).readingType) =
          some (some ((decompose ts cols).get ⟨k, hk⟩).value) := by
  set rs := decompose ts cols with hrs
  have hpi : (fun r => decide (keyOf r = keyOf (rs.get ⟨i, hi⟩) ∧
      r.readingType = (rs.get ⟨i, hi⟩).readingType)) (rs.get ⟨i, hi⟩) = true := by
    simp
  obtain ⟨k, hk, hki, hpk, hmin⟩ := exists_min_sat
    (fun r => decide (keyOf r = keyOf (rs.get ⟨i, hi⟩) ∧
      r.readingType = (rs.get ⟨i, hi⟩).readingType)) rs i hi hpi
  have hpk2 : keyOf (rs.get ⟨k, hk⟩) = keyOf (rs.get ⟨i, hi⟩) ∧
      (rs.get ⟨k, hk⟩).readingType = (rs.get ⟨i, hi⟩).readingType := by
    simpa using hpk
  refine ⟨k, hk, hki, hpk2.1, hpk2.2, ?_, ?_⟩
  · intro l2 hl2 hll
    have := hmin l2 hl2 hll
    simpa using this
  · intro row hrow hts hm
    rw [aggregate_eq, aggRows] at hrow
    obtain ⟨k0, hk0, hk0row⟩ := List.mem_map.mp hrow
    have hk0eq : k0 = keyOf (rs.get ⟨i, hi⟩) := by
      have h1 : row.timestamp = k0.1 := by rw [← hk0row]; rfl
      have h2 : row.meter = k0.2 := by rw [← hk0row]; rfl
      have : k0 = (row.timestamp, row.meter) := by
        rw [h1, h2]
      rw [this, hts, hm]
      rfl
    have hcmem : (rs.get ⟨i, hi⟩).readingType ∈ ptColsOf rs := by
      rw [ptColsOf, colsOf, mem_firstDedup]
      refine List.mem_map_of_mem _ ?_
      rw [naFree, List.mem_filter]
      exact ⟨List.get_mem rs i hi, by simpa using hna⟩
    rw [← hk0row, readingOf_mkRow, if_pos hcmem, hk0eq]
    have himp : ∀ x : FlatRecord,
        (fun r => decide (keyOf r = keyOf (rs.get ⟨i, hi⟩) ∧
          r.readingType = (rs.get ⟨i, hi⟩).readingType)) x = true →
        (fun r => decide (r.timestamp ≠ Cell.na)) x = true := by
      intro x hx
      simp only [decide_eq_true_eq] at hx ⊢
      have : x.timestamp = (rs.get ⟨i, hi⟩).timestamp := congrArg Prod.fst hx.1
      rw [this]
      exact hna
    rw [firstVal, naFree, find?_filter_of_imp _ _ _ himp,
      find?_eq_get_of_min
        (fun r => decide (keyOf r = keyOf (rs.get ⟨i, hi⟩) ∧
          r.readingType = (rs.get ⟨i, hi⟩).readingType)) rs k hk hmin hpk]
    rfl

/-! ## C3 (amended): one row per observed (timestamp, meter) pair -/

/-- In a duplicate-free list, filtering for one member yields length one. -/
theorem filter_eq_singleton_length {α : Type} [DecidableEq α] {l : List α} {a : α}
    (hnd : l.Nodup) (ha : a ∈ l) :
    (l.filter (fun x => decide (x = a))).length = 1 := by
  induction l with
  | nil => simp at ha
  | cons b l ih =>
    rcases List.mem_cons.mp ha with h | ha2
    · subst h
      rw [List.filter_cons_of_pos (by simp)]
      have hnotin : a ∉ l := (List.nodup_cons.mp hnd).1
      have hnil : l.filter (fun x => decide (x = a)) = [] := by
        rw [List.filter_eq_nil_iff]
        intro x hx
        simp only [decide_eq_true_eq]
        rintro rfl
        exact hnotin hx
      simp [hnil]
    · have hba : ¬ b = a := fun h => (List.nodup_cons.mp hnd).1 (h ▸ ha2)
      rw [List.filter_cons_of_neg (by simp [hba])]
      exact ih (List.nodup_cons.mp hnd).2 ha2

/-- Claim C3 (amended): for every (timestamp, meter) pair OBSERVED in at
least one flat record (at least one non-missing value, and — since
pandas drops null group keys — a non-missing timestamp), the output
contains exactly one row keyed by that pair, and in that row every
reading-type column with no observation for the pair holds an explicit
missing value.  Pairs formed from an input timestamp and a parsed meter
with no observed value have no row at all (`c3_counterexample`). -/
theorem c3_amended_one_row_per_observed_pair (ts : List Cell)
    (cols : List (String × List Cell)) (r : FlatRecord)
    (hr : r ∈ decompose ts cols) (hna : r.timestamp ≠ Cell.na) :
    ((aggregate (decompose ts cols)).filter
      (fun row => decide (row.timestamp = r.timestamp ∧ row.meter = r.meter))).length = 1 ∧
    ∀ row ∈ aggregate (decompose ts cols),
      row.timestamp = r.timestamp → row.meter = r.meter →
      ∀ p ∈ row.readings,
        (¬ ∃ r2 ∈ decompose ts cols, keyOf r2 = keyOf r ∧ r2.readingType = p.1) →
        p.2 = none := by
  set rs := decompose ts cols with hrs
  have hrmem : r ∈ naFree rs := by
    rw [naFree, List.mem_filter]
    exact ⟨hr, by simpa using hna⟩
  constructor
  · rw [aggregate_eq, aggRows, List.filter_map, List.length_map]
    have hpred : ∀ k ∈ keysOf (naFree rs),
        ((fun row => decide (row.timestamp = r.timestamp ∧ row.meter = r.meter)) ∘
          mkRow (naFree rs) (ptColsOf rs)) k = (fun x => decide (x = keyOf r)) k := by
      intro k _
      simp only [Function.comp_apply, mkRow, keyOf]
      by_cases h : k = (r.timestamp, r.meter)
      · simp [h]
      · have h2 : ¬(k.1 = r.timestamp ∧ k.2 = r.meter) := by
          intro hc
          exact h (Prod.ext hc.1 hc.2)
        simp [h, h2]
    rw [List.filter_congr hpred]
    refine filter_eq_singleton_length (nodup_firstDedup _) ?_
    rw [keysOf, mem_firstDedup]
    exact List.mem_map_of_mem keyOf hrmem
  · intro row hrow hts hm p hp hnex
    rw [aggregate_eq, aggRows] at hrow
    obtain ⟨k0, hk0, hk0row⟩ := List.mem_map.mp hrow
    have hk0eq : k0 = keyOf r := by
      have h1 : row.timestamp = k0.1 := by rw [← hk0row]; rfl
      have h2 : row.meter = k0.2 := by rw [← hk0row]; rfl
      have h3 : k0 = (row.timestamp, row.meter) := by rw [h1, h2]
      rw [h3, hts, hm]
      rfl
    rw [← hk0row, mkRow] at hp
    obtain ⟨c, hcmem, hpc⟩ := List.mem_map.mp hp
    have hp1 : p.1 = c := by rw [← hpc]
    have hfind : (naFree rs).find?
        (fun r2 => decide (keyOf r2 = k0 ∧ r2.readingType = c)) = none := by
      rw [List.find?_eq_none]
      intro x hx
      simp only [decide_eq_true_eq]
      rintro ⟨hxk, hxc⟩
      refine hnex ⟨x, (List.mem_filter.mp hx).1, ?_, ?_⟩
      · rw [hxk, hk0eq]
      · rw [hxc, hp1]
    rw [← hpc]
    simp only []
    rw [firstVal, hfind]
    rfl

/-- Duplicate columns (spec scenario 5): same meter, reading type and
unit, so records 0 and 1 of the decomposition collide on the full key. -/
def c2Ts : List Cell := [Cell.str "t"]

/-- Two identically-named columns carrying different values. -/
def c2Cols : List (String × List Cell) :=
  [("A - R (u)", [Cell.num 1]), ("A - R (u)", [Cell.num 2])]

/-- Witness for C2: with two records (values 1 and 2) sharing
(t, A, R), the output row keyed (t, A) holds value 1 — the record
from the earlier column. -/
theorem c2_witness :
    (⟨Cell.str "t", "A", [("R", some (Cell.num 1))]⟩ : OutputRow) ∈
      aggregate (decompose c2Ts c2Cols) ∧
    readingOf ⟨Cell.str "t", "A", [("R", some (Cell.num 1))]⟩ "R" =
      some (some (Cell.num 1)) := by
  refine ⟨by decide, ?_⟩
  obtain ⟨k, hk, hki, -, -, -, hrow⟩ :=
    c2_first_value_wins c2Ts c2Cols 0 1 (by decide) (by decide) (by decide)
      (by decide) (by decide) (by decide) (by decide)
  have hk0 : k = 0 := Nat.le_zero.mp hki
  subst hk0
  have hget : (decompose c2Ts c2Cols).get ⟨0, hk⟩ =
      ⟨Cell.str "t", "A", "R", "u", Cell.num 1⟩ := rfl
  have h3 := hrow ⟨Cell.str "t", "A", [("R", some (Cell.num 1))]⟩ (by decide)
    (by rw [hget]) (by rw [hget])
  rw [hget] at h3
  exact h3

/-- Witness for C3 (amended) on the same table as the counterexample:
the observed pair (t, A) has exactly one row, with missing cells in
unobserved reading-type columns. -/
theorem c3_witness :
    ((aggregate (decompose c3Ts c3Cols)).filter
      (fun row => decide (row.timestamp = Cell.str "t" ∧ row.meter = "A"))).length = 1 ∧
    ∀ row ∈ aggregate (decompose c3Ts c3Cols),
      row.timestamp = Cell.str "t" → row.meter = "A" →
      ∀ p ∈ row.readings,
        (¬ ∃ r2 ∈ decompose c3Ts c3Cols,
          keyOf r2 = (Cell.str "t", "A") ∧ r2.readingType = p.1) →
        p.2 = none :=
  c3_amended_one_row_per_observed_pair c3Ts c3Cols
    ⟨Cell.str "t", "A", "R", "u", Cell.num 1⟩ (by decide) (by decide)

/-- The table for the C4 witness: the timestamp column is in ISO form,
rejected by the strict parser and accepted by the permissive one. -/
def c4Table : RawTable :=
  ⟨["Timestamp", "A - R (u)"], [[Cell.str "2025-03-27 15:45:00"], [Cell.num 1]]⟩

/-- A strict parser that rejects everything (the ISO text does not match
the strict grammar). -/
def pStrictNone : Cell → Option DateTime := fun _ => none

/-- A permissive parser accepting exactly the ISO text of `c4Table`. -/
def pPermIso : Cell → Option DateTime := fun c =>
  match c with
  | Cell.str "2025-03-27 15:45:00" => some ⟨2025, 3, 27, 15, 45⟩
  | _ => none

/-- Witness for C4 (fallback clause): strict fails, permissive succeeds,
the column is rewritten to canonical form, the fallback warning is
recorded and no timestamp error is recorded. -/
theorem c4_witness :
    convertTimestamps pStrictNone pPermIso [Cell.str "2025-03-27 15:45:00"] =
      ([Cell.str "27/03/2025 15:45"], true, none) ∧
    warnFallback ∈ (run pStrictNone pPermIso c4Table).warnings ∧
    errTimestamp ∉ (run pStrictNone pPermIso c4Table).errors := by
  have h := (c4_timestamp_chain pStrictNone pPermIso c4Table "Timestamp"
      [Cell.str "2025-03-27 15:45:00"] [] (by decide)).2.1
      ⟨Cell.str "2025-03-27 15:45:00", by decide, rfl⟩
      [⟨2025, 3, 27, 15, 45⟩] (by decide)
  exact ⟨h.1.trans (by decide), h.2.1, h.2.2⟩

/-! ## The header grammar: split and lazy-match lemmas -/

/-- `splitFirstAux` splits at the FIRST occurrence of the separator: the
parts reassemble the input and no earlier position starts the separator. -/
theorem splitFirst_first_occurrence (sep : List Char) :
    ∀ (s m r : List Char), splitFirstAux sep s = some (m, r) →
      s = m ++ sep ++ r ∧ ∀ i, i < m.length → ¬ sep.isPrefixOf (s.drop i) = true := by
  intro s
  induction s with
  | nil => intro m r h; exact absurd h (by simp [splitFirstAux])
  | cons c rest ih =>
    intro m r h
    rw [splitFirstAux] at h
    by_cases hp : sep.isPrefixOf (c :: rest) = true
    · rw [if_pos hp] at h
      obtain ⟨rfl, rfl⟩ : m = [] ∧ (c :: rest).drop sep.length = r := by
        injection h with h2
        injection h2 with ha hb
        exact ⟨ha.symm, hb⟩
      obtain ⟨t, ht⟩ := List.isPrefixOf_iff_prefix.mp hp
      constructor
      · rw [List.nil_append, ← ht, List.drop_left]
      · intro i hi
        simp at hi
    · rw [if_neg hp] at h
      cases hrec : splitFirstAux sep rest with
      | none => rw [hrec] at h; exact absurd h (by simp)
      | some p =>
        rw [hrec] at h
        obtain ⟨m2, r2⟩ := p
        have hmr : m = c :: m2 ∧ r = r2 := by
          simp only [Option.map_some'] at h
          injection h with h2
          injection h2 with ha hb
          exact ⟨ha.symm, hb.symm⟩
        obtain ⟨hrest, hmin⟩ := ih m2 r2 hrec
        obtain ⟨rfl, rfl⟩ := hmr
        constructor
        · rw [List.cons_append, List.cons_append, hrest]
        · intro i hi
          cases i with
          | zero => simpa using hp
          | succ i2 =>
            have : (c :: rest).drop (i2 + 1) = rest.drop i2 := rfl
            rw [this]
            exact hmin i2 (by simpa using hi)

/-- Splitting on a single character not occurring in the left part. -/
theorem splitFirst_single (c : Char) (X Y : List Char) (hX : c ∉ X) :
    splitFirstAux [c] (X ++ c :: Y) = some (X, Y) := by
  induction X with
  | nil =>
    rw [List.nil_append, splitFirstAux, if_pos ?_]
    · rfl
    · rw [List.isPrefixOf_iff_prefix]
      exact ⟨Y, rfl⟩
  | cons x X' ih =>
    have hxc : c ≠ x := fun h => hX (h ▸ List.mem_cons_self x X')
    rw [List.cons_append, splitFirstAux, if_neg ?_]
    · rw [ih (fun h => hX (List.mem_cons_of_mem _ h))]
      rfl
    · intro hp
      obtain ⟨t, ht⟩ := List.isPrefixOf_iff_prefix.mp hp
      rw [List.singleton_append] at ht
      exact hxc (by injection ht)

/-- A single character absent from a list never splits it. -/
theorem splitFirst_single_none (c : Char) :
    ∀ (Y : List Char), c ∉ Y → splitFirstAux [c] Y = none := by
  intro Y
  induction Y with
  | nil => intro h; rfl
  | cons y Y' ih =>
    intro h
    have hyc : c ≠ y := fun he => h (he ▸ List.mem_cons_self y Y')
    rw [splitFirstAux, if_neg ?_]
    · rw [ih (fun hm => h (List.mem_cons_of_mem _ hm))]
      rfl
    · intro hp
      obtain ⟨t, ht⟩ := List.isPrefixOf_iff_prefix.mp hp
      rw [List.singleton_append] at ht
      exact hyc (by injection ht)

/-- The head surviving `dropWhile` fails the predicate. -/
theorem dropWhile_head_false {α : Type} (p : α → Bool) :
    ∀ (l : List α) (d : α) (t : List α), l.dropWhile p = d :: t → p d = false := by
  intro l
  induction l with
  | nil => intro d t h; exact absurd h (by simp)
  | cons a l ih =>
    intro d t h
    rw [List.dropWhile_cons] at h
    by_cases hp : p a = true
    · rw [if_pos hp] at h
      exact ih d t h
    · rw [if_neg hp] at h
      injection h with h1 h2
      rw [← h1]
      exact Bool.eq_false_iff.mpr hp

/-- `dropWhile` is idempotent. -/
theorem dropWhile_dropWhile {α : Type} (p : α → Bool) (l : List α) :
    (l.dropWhile p).dropWhile p = l.dropWhile p := by
  cases h : l.dropWhile p with
  | nil => rfl
  | cons d t =>
    rw [List.dropWhile_cons, if_neg ?_]
    rw [Bool.not_eq_true, dropWhile_head_false p l d t h]

/-- The lazy second group: with no `)` and no newline inside, the shortest
match runs to the closing parenthesis at the very end. -/
theorem findG2_append (T2 : List Char) (h2 : ')' ∉ T2) (h2n : '\n' ∉ T2) :
    findG2 (T2 ++ [')']) = some T2 := by
  induction T2 with
  | nil =>
    rw [List.nil_append, findG2, if_pos ?_]
    exact ⟨rfl, by simp [anchorOk]⟩
  | cons c T2' ih =>
    have hc : c ≠ ')' := fun h => h2 (h ▸ List.mem_cons_self c T2')
    have hn : c ≠ '\n' := fun h => h2n (h ▸ List.mem_cons_self c T2')
    rw [List.cons_append, findG2, if_neg (fun hx => hc hx.1), if_neg hn,
      ih (fun h => h2 (List.mem_cons_of_mem _ h)) (fun h => h2n (List.mem_cons_of_mem _ h))]
    rfl

/-- A match attempt just after an all-whitespace stretch followed by `(`. -/
theorem attempt_ws (T1 r : List Char) (h : ∀ x ∈ T1, isPySpace x = true) :
    attempt (T1 ++ '(' :: r) = findG2 r := by
  have hd : (T1 ++ '(' :: r).dropWhile isPySpace = '(' :: r := by
    rw [List.dropWhile_append_of_pos h, List.dropWhile_cons, if_neg (by decide)]
  unfold attempt
  rw [hd]
  rfl

/-- A match attempt fails while a non-whitespace, non-`(` character is in
front of the first parenthesis. -/
theorem attempt_fail (T1 r : List Char) (h1 : '(' ∉ T1)
    (hnall : ¬ ∀ x ∈ T1, isPySpace x = true) :
    attempt (T1 ++ '(' :: r) = none := by
  have hne : T1.dropWhile isPySpace ≠ [] := by
    rw [Ne, List.dropWhile_eq_nil_iff]
    exact hnall
  cases hdd : T1.dropWhile isPySpace with
  | nil => exact absurd hdd hne
  | cons d t =>
    have hdf : isPySpace d = false := dropWhile_head_false _ _ _ _ hdd
    have hsuf : T1.dropWhile isPySpace <:+ T1 := List.dropWhile_suffix isPySpace
    have hdmem : d ∈ T1 := hsuf.subset (by rw [hdd]; exact List.mem_cons_self d t)
    have hdne : d ≠ '(' := fun h => h1 (h ▸ hdmem)
    have hd : (T1 ++ '(' :: r).dropWhile isPySpace = d :: (t ++ '(' :: r) := by
      rw [List.dropWhile_append, hdd]
      simp
    unfold attempt
    rw [hd]
    split
    · next tail heq =>
      have hdp : d = '(' := by injection heq
      exact absurd hdp hdne
    · rfl

theorem dropTrailWsR_eq_nil_iff (l : List Char) :
    dropTrailWsR l = [] ↔ ∀ x ∈ l, isPySpace x = true := by
  rw [dropTrailWsR, List.reverse_eq_nil_iff, List.dropWhile_eq_nil_iff]
  constructor
  · intro h x hx
    exact h x (List.mem_reverse.mpr hx)
  · intro h x hx
    exact h x (List.mem_reverse.mp hx)

theorem dropTrailWsR_cons (a : Char) (l : List Char)
    (h : ¬ ∀ x ∈ a :: l, isPySpace x = true) :
    dropTrailWsR (a :: l) = a :: dropTrailWsR l := by
  rw [dropTrailWsR, List.reverse_cons, List.dropWhile_append]
  by_cases hl : (l.reverse.dropWhile isPySpace).isEmpty
  · have hlall : ∀ x ∈ l, isPySpace x = true := by
      intro x hx
      exact List.dropWhile_eq_nil_iff.mp (List.isEmpty_iff.mp hl) x (List.mem_reverse.mpr hx)
    have ha : isPySpace a = false := by
      cases hh : isPySpace a with
      | false => rfl
      | true =>
        exact absurd (fun x hx => by
          rcases List.mem_cons.mp hx with rfl | hx2
          · exact hh
          · exact hlall x hx2) h
    rw [if_pos hl, List.dropWhile_cons, if_neg (by simp [ha]), dropTrailWsR,
      List.isEmpty_iff.mp hl]
    rfl
  · rw [if_neg hl, List.reverse_append, dropTrailWsR]
    rfl

theorem dropTrailWsR_prefix (l : List Char) : dropTrailWsR l <+: l := by
  rw [dropTrailWsR]
  have h := List.dropWhile_suffix (l := l.reverse) isPySpace
  have h2 := List.reverse_prefix.mpr h
  rwa [List.reverse_reverse] at h2

theorem dropTrailWsR_idem (l : List Char) :
    dropTrailWsR (dropTrailWsR l) = dropTrailWsR l := by
  rw [dropTrailWsR, dropTrailWsR, List.reverse_reverse, dropWhile_dropWhile]

/-- The whole list survives `dropWhile` exactly when its head does. -/
theorem dropWhile_eq_self_head {α : Type} (p : α → Bool) (c : α) (t : List α)
    (h : (c :: t).dropWhile p = c :: t) : p c = false := by
  cases hh : p c with
  | false => rfl
  | true =>
    rw [List.dropWhile_cons, if_pos hh] at h
    have hlen := congrArg List.length h
    have hle : (t.dropWhile p).length ≤ t.length :=
      (List.dropWhile_suffix p).length_le
    simp only [List.length_cons] at hlen
    omega

theorem pyStripL_head_false (l : List Char) (c : Char) (t : List Char)
    (h : pyStripL l = c :: t) : isPySpace c = false := by
  rw [pyStripL] at h
  obtain ⟨u, hu⟩ := dropTrailWsR_prefix (l.dropWhile isPySpace)
  rw [h, List.cons_append] at hu
  exact dropWhile_head_false isPySpace l c (t ++ u) hu.symm

/-- Removing trailing whitespace commutes with a later full strip, when
there is no leading whitespace to begin with. -/
theorem pyStripL_dropTrail (l : List Char) (hh : l.dropWhile isPySpace = l) :
    pyStripL (dropTrailWsR l) = pyStripL l := by
  have hR : pyStripL l = dropTrailWsR l := by rw [pyStripL, hh]
  cases hd : dropTrailWsR l with
  | nil => rw [hR, hd]; rfl
  | cons c t =>
    have hc : isPySpace c = false := by
      obtain ⟨u, hu⟩ := dropTrailWsR_prefix l
      rw [hd, List.cons_append] at hu
      cases l with
      | nil => simp [dropTrailWsR] at hd
      | cons a l2 =>
        have hac : c = a := by injection hu
        have := dropWhile_eq_self_head isPySpace a l2 hh
        rw [hac]
        exact this
    rw [hR, ← hd, pyStripL]
    have : (dropTrailWsR l).dropWhile isPySpace = dropTrailWsR l := by
      rw [hd, List.dropWhile_cons, if_neg (by simp [hc])]
    rw [this, dropTrailWsR_idem]

/-- The central lemma about the lazy regex: on `T1 ++ "(" ++ T2 ++ ")"`
with no `(` or newline in `T1` and no `)` or newline in `T2`, the match
succeeds with group1 = `T1` less trailing whitespace (consumed by `\s*`)
and group2 = `T2`: earlier positions fail because no reachable `(` exists
inside `T1`. -/
theorem mpGo_paren (T2 : List Char) (h2 : ')' ∉ T2) (h2n : '\n' ∉ T2) :
    ∀ (T1 : List Char) (g1rev : List Char), '(' ∉ T1 → '\n' ∉ T1 →
      mpGo g1rev (T1 ++ '(' :: (T2 ++ [')'])) =
        some (g1rev.reverse ++ dropTrailWsR T1, T2) := by
  intro T1
  induction T1 with
  | nil =>
    intro g1rev h1 h1n
    have ha : attempt ('(' :: (T2 ++ [')'])) = some T2 := by
      have h := attempt_ws [] (T2 ++ [')']) (by simp)
      rw [List.nil_append] at h
      rw [h, findG2_append T2 h2 h2n]
    rw [List.nil_append, mpGo, ha]
    simp [dropTrailWsR]
  | cons a T1' ih =>
    intro g1rev h1 h1n
    have hna : a ≠ '\n' := fun h => h1n (h ▸ List.mem_cons_self a T1')
    by_cases hall : ∀ x ∈ a :: T1', isPySpace x = true
    · rw [List.cons_append, mpGo, ← List.cons_append,
        attempt_ws (a :: T1') _ hall, findG2_append T2 h2 h2n]
      have : dropTrailWsR (a :: T1') = [] := (dropTrailWsR_eq_nil_iff _).mpr hall
      rw [this]
      simp
    · rw [List.cons_append, mpGo, ← List.cons_append,
        attempt_fail (a :: T1') _ h1 hall, if_neg hna,
        ih (a :: g1rev) (fun h => h1 (List.mem_cons_of_mem _ h))
          (fun h => h1n (List.mem_cons_of_mem _ h)),
        dropTrailWsR_cons a T1' hall]
      simp

theorem pyStrip_mk (l : List Char) : pyStrip (String.mk l) = String.mk (pyStripL l) :=
  rfl

/-- A prefix of an already-stripped list has no leading whitespace. -/
theorem no_lead_of_strip_prefix (rem T1 rest : List Char)
    (h : pyStripL rem = T1 ++ rest) : T1.dropWhile isPySpace = T1 := by
  cases T1 with
  | nil => rfl
  | cons c t =>
    have hc : isPySpace c = false :=
      pyStripL_head_false rem c (t ++ rest) (by rw [h, List.cons_append])
    rw [List.dropWhile_cons, if_neg (by simp [hc])]

/-- The parser on a header whose first split succeeds, written against the
stripped remainder. -/
theorem extract_eq_of_split (hdr : String) (m rem : List Char)
    (hs : splitFirstAux sepHyphen hdr.data = some (m, rem)) :
    extract_meter_and_reading hdr =
      match mpGo [] (pyStripL rem) with
      | some g => (String.mk (pyStripL m), pyStrip (String.mk g.1), pyStrip (String.mk g.2))
      | none =>
        match splitFirstAux ['_'] (pyStripL rem).reverse with
        | some q => (String.mk (pyStripL m), pyStrip (String.mk q.2.reverse),
            pyStrip (String.mk q.1.reverse))
        | none => (String.mk (pyStripL m), String.mk (pyStripL rem), "Unknown Unit") := by
  unfold extract_meter_and_reading
  rw [hs]
  rfl

/-- The trailing-parenthesized-unit branch, under the delimiter-freeness
conditions that pin the lazy match. -/
theorem extract_paren_branch (hdr : String) (m rem T1 T2 : List Char)
    (hsplit : splitFirstAux sepHyphen hdr.data = some (m, rem))
    (hT : pyStripL rem = T1 ++ '(' :: (T2 ++ [')']))
    (h1 : '(' ∉ T1) (h1n : '\n' ∉ T1) (h2 : ')' ∉ T2) (h2n : '\n' ∉ T2) :
    extract_meter_and_reading hdr =
      (String.mk (pyStripL m), String.mk (pyStripL T1), String.mk (pyStripL T2)) := by
  have hnl : T1.dropWhile isPySpace = T1 :=
    no_lead_of_strip_prefix rem T1 ('(' :: (T2 ++ [')'])) hT
  rw [extract_eq_of_split hdr m rem hsplit, hT,
    mpGo_paren T2 h2 h2n T1 [] h1 h1n]
  show (String.mk (pyStripL m),
      pyStrip (String.mk (List.reverse ([] : List Char) ++ dropTrailWsR T1)),
      pyStrip (String.mk T2)) = _
  rw [pyStrip_mk, pyStrip_mk, List.reverse_nil, List.nil_append,
    pyStripL_dropTrail T1 hnl]

/-- The last-underscore branch, taken when the lazy pattern fails. -/
theorem extract_underscore_branch (hdr : String) (m rem A B : List Char)
    (hsplit : splitFirstAux sepHyphen hdr.data = some (m, rem))
    (hmp : mpGo [] (pyStripL rem) = none)
    (hAB : pyStripL rem = A ++ '_' :: B) (hB : '_' ∉ B) :
    extract_meter_and_reading hdr =
      (String.mk (pyStripL m), String.mk (pyStripL A), String.mk (pyStripL B)) := by
  have hrev : (A ++ '_' :: B).reverse = B.reverse ++ '_' :: A.reverse := by
    rw [List.reverse_append, List.reverse_cons, List.append_assoc]
    rfl
  have hBrev : '_' ∉ B.reverse := fun h => hB (List.mem_reverse.mp h)
  rw [extract_eq_of_split hdr m rem hsplit, hmp, hAB, hrev,
    splitFirst_single '_' B.reverse A.reverse hBrev]
  show (String.mk (pyStripL m), pyStrip (String.mk A.reverse.reverse),
      pyStrip (String.mk B.reverse.reverse)) = _
  rw [pyStrip_mk, pyStrip_mk, List.reverse_reverse, List.reverse_reverse]

/-- The sentinel branch, taken exactly when the lazy pattern fails and the
remainder has no underscore. -/
theorem extract_fallback_branch (hdr : String) (m rem : List Char)
    (hsplit : splitFirstAux sepHyphen hdr.data = some (m, rem))
    (hmp : mpGo [] (pyStripL rem) = none) (hno : '_' ∉ pyStripL rem) :
    extract_meter_and_reading hdr =
      (String.mk (pyStripL m), String.mk (pyStripL rem), "Unknown Unit") := by
  have hnone : splitFirstAux ['_'] (pyStripL rem).reverse = none :=
    splitFirst_single_none '_' _ (fun h => hno (List.mem_reverse.mp h))
  rw [extract_eq_of_split hdr m rem hsplit, hmp, hnone]

/-- Claim C6 (amended): for headers containing " - " the parser splits at
the provably FIRST occurrence, trims both parts; when the trimmed
remainder decomposes as `T1 ++ "(" ++ T2 ++ ")"` with no `(`/newline in
`T1` and no `)`/newline in `T2`, the reading type is `T1` trimmed and
the unit is `T2` trimmed (for nested or repeated groups the lazy match
anchors at the FIRST reachable `(` and the LAST `)` instead of the
trailing group — see the counterexample); otherwise, when the pattern
finds no match at all, a remainder containing an underscore is split at
the LAST underscore, and failing that the unit is the sentinel. -/
theorem c6_amended_header_grammar (hdr : String) (m rem : List Char)
    (hsplit : splitFirstAux sepHyphen hdr.data = some (m, rem)) :
    (hdr.data = m ++ sepHyphen ++ rem ∧
      ∀ i, i < m.length → ¬ sepHyphen.isPrefixOf (hdr.data.drop i) = true) ∧
    (∀ T1 T2 : List Char, pyStripL rem = T1 ++ '(' :: (T2 ++ [')']) →
      '(' ∉ T1 → '\n' ∉ T1 → ')' ∉ T2 → '\n' ∉ T2 →
      extract_meter_and_reading hdr =
        (String.mk (pyStripL m), String.mk (pyStripL T1), String.mk (pyStripL T2))) ∧
    (mpGo [] (pyStripL rem) = none →
      ∀ A B : List Char, pyStripL rem = A ++ '_' :: B → '_' ∉ B →
      extract_meter_and_reading hdr =
        (String.mk (pyStripL m), String.mk (pyStripL A), String.mk (pyStripL B))) ∧
    (mpGo [] (pyStripL rem) = none → '_' ∉ pyStripL rem →
      extract_meter_and_reading hdr =
        (String.mk (pyStripL m), String.mk (pyStripL rem), "Unknown Unit")) := by
  refine ⟨splitFirst_first_occurrence sepHyphen hdr.data m rem hsplit,
    fun T1 T2 hT h1 h1n h2 h2n =>
      extract_paren_branch hdr m rem T1 T2 hsplit hT h1 h1n h2 h2n,
    fun hmp A B hAB hB =>
      extract_underscore_branch hdr m rem A B hsplit hmp hAB hB,
    fun hmp hno => extract_fallback_branch hdr m rem hsplit hmp hno⟩

/-- Witness for C6 (amended) at a well-formed header. -/
theorem c6_witness :
    extract_meter_and_reading "Building B - Energy Reading (kWh)" =
      ("Building B", "Energy Reading", "kWh") := by
  have h := (c6_amended_header_grammar "Building B - Energy Reading (kWh)"
      ("Building B".data) ("Energy Reading (kWh)".data) (by decide)).2.1
      ("Energy Reading ".data) ("kWh".data) (by decide) (by decide)
      (by decide) (by decide) (by decide)
  exact h.trans (by decide)

/-- Claim C10 (amended): the empty-parenthesized-group rule holds only
when no earlier `(` (and no newline) precedes the trailing `()` in the
trimmed remainder; then the unit is the empty string, not the sentinel.
The sentinel arises from the fallback branch exactly when the pattern
finds no match and the remainder has no underscore. -/
theorem c10_amended_empty_parens (hdr : String) (m rem : List Char)
    (hsplit : splitFirstAux sepHyphen hdr.data = some (m, rem)) :
    (∀ X : List Char, pyStripL rem = X ++ ['(', ')'] → '(' ∉ X → '\n' ∉ X →
      extract_meter_and_reading hdr =
        (String.mk (pyStripL m), String.mk (pyStripL X), "")) ∧
    (mpGo [] (pyStripL rem) = none → '_' ∉ pyStripL rem →
      extract_meter_and_reading hdr =
        (String.mk (pyStripL m), String.mk (pyStripL rem), "Unknown Unit")) := by
  constructor
  · intro X hX h1 h1n
    have hX2 : pyStripL rem = X ++ '(' :: (([] : List Char) ++ [')']) := by
      simpa using hX
    exact extract_paren_branch hdr m rem X [] hsplit hX2 h1 h1n
      (by simp) (by simp)
  · intro hmp hno
    exact extract_fallback_branch hdr m rem hsplit hmp hno

/-- Witness for C10 (amended): a remainder ending in "()" with no other
parenthesis yields the empty-string unit. -/
theorem c10_witness :
    extract_meter_and_reading "M - Reading ()" = ("M", "Reading", "") := by
  have h := (c10_amended_empty_parens "M - Reading ()"
      ("M".data) ("Reading ()".data) (by decide)).1
      ("Reading ".data) (by decide) (by decide) (by decide)
  exact h.trans (by decide)

/-! ## C9: idempotence of the aggregation -/

theorem mem_listJoin {α : Type} (x : α) :
    ∀ ls : List (List α), x ∈ listJoin ls ↔ ∃ l ∈ ls, x ∈ l := by
  intro ls
  induction ls with
  | nil => simp [listJoin]
  | cons l ls ih =>
    rw [listJoin, List.mem_append, ih]
    constructor
    · rintro (h | ⟨l2, hl2, hx⟩)
      · exact ⟨l, List.mem_cons_self l ls, h⟩
      · exact ⟨l2, List.mem_cons_of_mem _ hl2, hx⟩
    · rintro ⟨l2, hl2, hx⟩
      rcases List.mem_cons.mp hl2 with rfl | hl3
      · exact Or.inl hx
      · exact Or.inr ⟨l2, hl3, hx⟩

theorem map_listJoin {α β : Type} (f : α → β) :
    ∀ ls : List (List α), (listJoin ls).map f = listJoin (ls.map (List.map f)) := by
  intro ls
  induction ls with
  | nil => rfl
  | cons l ls ih => simp [listJoin, List.map_append, ih]

theorem firstDedupAux_skip {α : Type} [DecidableEq α] :
    ∀ (t l seen : List α), (∀ x ∈ t, x ∈ seen) →
      firstDedupAux seen (t ++ l) = firstDedupAux seen l := by
  intro t
  induction t with
  | nil => intro l seen _; rfl
  | cons x t' ih =>
    intro l seen h
    rw [List.cons_append, firstDedupAux, if_pos (h x (List.mem_cons_self x t'))]
    exact ih l seen (fun y hy => h y (List.mem_cons_of_mem _ hy))

/-- Deduplicating a concatenation of nonempty constant groups recovers
the group labels in order. -/
theorem firstDedupAux_groups {α : Type} [DecidableEq α] :
    ∀ (cs : List α) (F : α → List α) (seen : List α), cs.Nodup →
      (∀ c ∈ cs, c ∉ seen) →
      (∀ c ∈ cs, F c ≠ [] ∧ ∀ x ∈ F c, x = c) →
      firstDedupAux seen (listJoin (cs.map F)) = cs := by
  intro cs
  induction cs with
  | nil => intro F seen _ _ _; rfl
  | cons c cs' ih =>
    intro F seen hnd hseen hF
    have hFc := hF c (List.mem_cons_self c cs')
    cases hFc1 : F c with
    | nil => exact absurd hFc1 hFc.1
    | cons x t =>
      have hx : x = c := hFc.2 x (by rw [hFc1]; exact List.mem_cons_self x t)
      have hjoin : listJoin ((c :: cs').map F) = F c ++ listJoin (cs'.map F) := rfl
      rw [hjoin, hFc1, hx, List.cons_append, firstDedupAux,
        if_neg (hseen c (List.mem_cons_self c cs'))]
      have hskip : firstDedupAux (c :: seen) (t ++ listJoin (cs'.map F)) =
          firstDedupAux (c :: seen) (listJoin (cs'.map F)) := by
        refine firstDedupAux_skip t _ (c :: seen) ?_
        intro y hy
        have hyc : y = c := hFc.2 y (by rw [hFc1]; exact List.mem_cons_of_mem _ hy)
        rw [hyc]
        exact List.mem_cons_self c seen
      rw [hskip, ih F (c :: seen) (List.nodup_cons.mp hnd).2 ?_
        (fun c' hc' => hF c' (List.mem_cons_of_mem _ hc'))]
      intro c' hc'
      rw [List.mem_cons]
      rintro (rfl | hs)
      · exact (List.nodup_cons.mp hnd).1 hc'
      · exact hseen c' (List.mem_cons_of_mem _ hc') hs

/-- Membership in the re-decomposition of an aggregated table: exactly one
record per (key, column) cell holding an observed value. -/
theorem mem_redecompose_aggregate (rs : List FlatRecord) (r : FlatRecord) :
    r ∈ redecompose (ptColsOf rs) (aggregate rs) ↔
      ∃ c ∈ ptColsOf rs, ∃ k ∈ keysOf (naFree rs), ∃ v,
        firstVal (naFree rs) k c = some v ∧
        r = ⟨k.1, k.2, c, "Unknown Unit", v⟩ := by
  rw [redecompose, mem_listJoin]
  constructor
  · rintro ⟨l, hl, hr⟩
    obtain ⟨c, hc, rfl⟩ := List.mem_map.mp hl
    obtain ⟨rowx, hrowx, hg⟩ := List.mem_filterMap.mp hr
    rw [aggregate_eq, aggRows] at hrowx
    obtain ⟨k, hk, rfl⟩ := List.mem_map.mp hrowx
    refine ⟨c, hc, k, hk, ?_⟩
    cases hfv : firstVal (naFree rs) k c with
    | none =>
      rw [readingOf_mkRow, if_pos hc, hfv] at hg
      exact absurd hg (by simp)
    | some v =>
      rw [readingOf_mkRow, if_pos hc, hfv] at hg
      have hg2 : some (⟨(mkRow (naFree rs) (ptColsOf rs) k).timestamp,
          (mkRow (naFree rs) (ptColsOf rs) k).meter, c, "Unknown Unit", v⟩ : FlatRecord)
          = some r := hg
      have hg3 : (⟨k.1, k.2, c, "Unknown Unit", v⟩ : FlatRecord) = r := by
        injection hg2
      exact ⟨v, rfl, hg3.symm⟩
  · rintro ⟨c, hc, k, hk, v, hfv, rfl⟩
    refine ⟨_, List.mem_map_of_mem _ hc, ?_⟩
    rw [List.mem_filterMap]
    refine ⟨mkRow (naFree rs) (ptColsOf rs) k, ?_, ?_⟩
    · rw [aggregate_eq, aggRows]
      exact List.mem_map_of_mem _ hk
    · rw [readingOf_mkRow, if_pos hc, hfv]
      rfl

/-- Re-decomposed records inherit non-missing timestamps from the keys. -/
theorem naFree_redecompose (rs : List FlatRecord) :
    naFree (redecompose (ptColsOf rs) (aggregate rs)) =
      redecompose (ptColsOf rs) (aggregate rs) := by
  rw [naFree, List.filter_eq_self]
  intro r hr
  obtain ⟨c, hc, k, hk, v, hfv, rfl⟩ := (mem_redecompose_aggregate rs r).mp hr
  have hk2 : k ∈ (naFree rs).map keyOf := (mem_firstDedup _ _).mp hk
  obtain ⟨r0, hr0, hr0k⟩ := List.mem_map.mp hk2
  have hna : r0.timestamp ≠ Cell.na := by
    have := (List.mem_filter.mp hr0).2
    simpa using this
  have hts : k.1 = r0.timestamp := by rw [← hr0k]; rfl
  simp only [decide_eq_true_eq]
  show k.1 ≠ Cell.na
  rw [hts]
  exact hna

/-- The re-decomposition has the same pivot keys. -/
theorem keysOf_redecompose (rs : List FlatRecord) (k2 : Cell × String) :
    k2 ∈ keysOf (redecompose (ptColsOf rs) (aggregate rs)) ↔
      k2 ∈ keysOf (naFree rs) := by
  rw [keysOf, mem_firstDedup]
  constructor
  · intro h
    obtain ⟨r, hr, hrk⟩ := List.mem_map.mp h
    obtain ⟨c, hc, k, hk, v, hfv, rfl⟩ := (mem_redecompose_aggregate rs r).mp hr
    have : keyOf (⟨k.1, k.2, c, "Unknown Unit", v⟩ : FlatRecord) = k := rfl
    rw [this] at hrk
    rw [← hrk]
    exact hk
  · intro hk2
    have h1 : k2 ∈ (naFree rs).map keyOf := (mem_firstDedup _ _).mp hk2
    obtain ⟨r0, hr0, hr0k⟩ := List.mem_map.mp h1
    have hc : r0.readingType ∈ ptColsOf rs := by
      rw [ptColsOf, colsOf, mem_firstDedup]
      exact List.mem_map_of_mem _ hr0
    have hfv : (firstVal (naFree rs) k2 r0.readingType).isSome := by
      rw [firstVal, Option.isSome_map', List.find?_isSome]
      exact ⟨r0, hr0, by simp [hr0k]⟩
    obtain ⟨v, hv⟩ := Option.isSome_iff_exists.mp hfv
    refine List.mem_map.mpr ⟨⟨k2.1, k2.2, r0.readingType, "Unknown Unit", v⟩, ?_, rfl⟩
    exact (mem_redecompose_aggregate rs _).mpr ⟨r0.readingType, hc, k2, hk2, v, hv, rfl⟩

/-- The re-decomposition has the same pivot columns, in the same order. -/
theorem ptColsOf_redecompose (rs : List FlatRecord) :
    ptColsOf (redecompose (ptColsOf rs) (aggregate rs)) = ptColsOf rs := by
  rw [ptColsOf, naFree_redecompose, colsOf, redecompose, map_listJoin,
    List.map_map, firstDedup]
  refine firstDedupAux_groups (ptColsOf rs) _ [] ?_ (by simp) ?_
  · exact nodup_firstDedup _
  · intro c hc
    constructor
    · have h1 : c ∈ (naFree rs).map (fun r => r.readingType) := by
        rw [ptColsOf, colsOf, mem_firstDedup] at hc
        exact hc
      obtain ⟨r0, hr0, hr0c⟩ := List.mem_map.mp h1
      have hk : keyOf r0 ∈ keysOf (naFree rs) := by
        rw [keysOf, mem_firstDedup]
        exact List.mem_map_of_mem _ hr0
      have hfv : (firstVal (naFree rs) (keyOf r0) c).isSome := by
        rw [firstVal, Option.isSome_map', List.find?_isSome]
        exact ⟨r0, hr0, by simp [hr0c]⟩
      obtain ⟨v, hv⟩ := Option.isSome_iff_exists.mp hfv
      have hrow : mkRow (naFree rs) (ptColsOf rs) (keyOf r0) ∈ aggregate rs := by
        rw [aggregate_eq, aggRows]
        exact List.mem_map_of_mem _ hk
      intro hnil
      rw [Function.comp_apply, List.map_eq_nil_iff, List.filterMap_eq_nil_iff] at hnil
      have hcontra := hnil _ hrow
      rw [readingOf_mkRow, if_pos hc, hv] at hcontra
      simp at hcontra
    · intro x hx
      rw [Function.comp_apply, List.mem_map] at hx
      obtain ⟨rec, hrecmem, hrecrt⟩ := hx
      obtain ⟨rowx, hrowx, hg⟩ := List.mem_filterMap.mp hrecmem
      cases hro : readingOf rowx c with
      | none => rw [hro] at hg; exact absurd hg (by simp)
      | some o =>
        cases o with
        | none => rw [hro] at hg; exact absurd hg (by simp)
        | some v =>
          rw [hro] at hg
          have hg2 : some (⟨rowx.timestamp, rowx.meter, c, "Unknown Unit", v⟩ : FlatRecord)
              = some rec := hg
          have hg3 : (⟨rowx.timestamp, rowx.meter, c, "Unknown Unit", v⟩ : FlatRecord)
              = rec := by injection hg2
          rw [← hrecrt, ← hg3]

/-- Each cell survives the round trip: the re-decomposed records contain
at most one record per (key, column), holding exactly the first-match
value of the original records. -/
theorem firstVal_redecompose (rs : List FlatRecord) (k2 : Cell × String)
    (hk2 : k2 ∈ keysOf (naFree rs)) (c : String) (hc : c ∈ ptColsOf rs) :
    firstVal (redecompose (ptColsOf rs) (aggregate rs)) k2 c =
      firstVal (naFree rs) k2 c := by
  cases hfv : firstVal (naFree rs) k2 c with
  | some v =>
    have hrec : (⟨k2.1, k2.2, c, "Unknown Unit", v⟩ : FlatRecord) ∈
        redecompose (ptColsOf rs) (aggregate rs) :=
      (mem_redecompose_aggregate rs _).mpr ⟨c, hc, k2, hk2, v, hfv, rfl⟩
    have hsome : ((redecompose (ptColsOf rs) (aggregate rs)).find?
        (fun r => decide (keyOf r = k2 ∧ r.readingType = c))).isSome := by
      rw [List.find?_isSome]
      exact ⟨_, hrec, by simp [keyOf]⟩
    obtain ⟨r0, hr0find⟩ := Option.isSome_iff_exists.mp hsome
    have hr0mem := List.mem_of_find?_eq_some hr0find
    have hr0p := List.find?_some hr0find
    simp only [decide_eq_true_eq] at hr0p
    obtain ⟨c', hc', k', hk', v', hv', hr0eq⟩ :=
      (mem_redecompose_aggregate rs r0).mp hr0mem
    have hkk : k' = k2 := by
      have h1 : keyOf r0 = k' := by rw [hr0eq]; rfl
      rw [← h1]
      exact hr0p.1
    have hcc : c' = c := by
      have h1 : r0.readingType = c' := by rw [hr0eq]
      rw [← h1]
      exact hr0p.2
    have hvv : v' = v := by
      rw [hkk, hcc, hfv] at hv'
      injection hv' with h
      exact h.symm
    have e1 : firstVal (redecompose (ptColsOf rs) (aggregate rs)) k2 c =
        some r0.value := by
      rw [firstVal, hr0find]
      rfl
    have e2 : r0.value = v := by
      rw [hr0eq, hvv]
    rw [e1, e2]
  | none =>
    rw [firstVal, List.find?_eq_none.mpr ?_]
    · rfl
    · intro x hx
      simp only [decide_eq_true_eq]
      rintro ⟨hxk, hxc⟩
      obtain ⟨c', hc', k', hk', v', hv', hxeq⟩ :=
        (mem_redecompose_aggregate rs x).mp hx
      have hkk : k' = k2 := by
        have h1 : keyOf x = k' := by rw [hxeq]; rfl
        rw [← h1]
        exact hxk
      have hcc : c' = c := by
        have h1 : x.readingType = c' := by rw [hxeq]
        rw [← h1]
        exact hxc
      rw [hkk, hcc, hfv] at hv'
      exact absurd hv' (by simp)

/-- Core idempotence of the pivot: re-decomposing the aggregated table
column-wise and aggregating again yields the same set of output rows. -/
theorem aggregate_redecompose_mem (rs : List FlatRecord) (row : OutputRow) :
    row ∈ aggregate (redecompose (ptColsOf rs) (aggregate rs)) ↔
      row ∈ aggregate rs := by
  have hmkrow : ∀ k2 ∈ keysOf (naFree rs),
      mkRow (redecompose (ptColsOf rs) (aggregate rs)) (ptColsOf rs) k2 =
        mkRow (naFree rs) (ptColsOf rs) k2 := by
    intro k2 hk2
    rw [mkRow, mkRow]
    have : (ptColsOf rs).map
        (fun c => (c, firstVal (redecompose (ptColsOf rs) (aggregate rs)) k2 c)) =
        (ptColsOf rs).map (fun c => (c, firstVal (naFree rs) k2 c)) := by
      refine List.map_congr_left ?_
      intro c hc
      rw [firstVal_redecompose rs k2 hk2 c hc]
    rw [this]
  have hR : aggregate rs = (keysOf (naFree rs)).map (mkRow (naFree rs) (ptColsOf rs)) := by
    rw [aggregate_eq, aggRows]
  rw [aggregate_eq (redecompose (ptColsOf rs) (aggregate rs)), aggRows,
    naFree_redecompose, ptColsOf_redecompose]
  constructor
  · intro h
    obtain ⟨k2, hk2, hrow⟩ := List.mem_map.mp h
    have hk2b : k2 ∈ keysOf (naFree rs) := (keysOf_redecompose rs k2).mp hk2
    rw [hR, ← hrow, hmkrow k2 hk2b]
    exact List.mem_map_of_mem _ hk2b
  · intro h
    rw [hR] at h
    obtain ⟨k2, hk2, hrow⟩ := List.mem_map.mp h
    refine List.mem_map.mpr ⟨k2, (keysOf_redecompose rs k2).mpr hk2, ?_⟩
    rw [hmkrow k2 hk2, hrow]

/-- Claim C9: aggregation is idempotent — decomposing the aggregated
output table of a run (each reading-type column as an independent
single-column decomposition keyed by the Timestamp and Meter columns)
and aggregating again reproduces exactly the same set of output rows. -/
theorem c9_aggregation_idempotent (ts : List Cell) (cols : List (String × List Cell)) :
    ∀ row : OutputRow,
      row ∈ aggregate (redecompose (ptColsOf (decompose ts cols))
        (aggregate (decompose ts cols))) ↔
      row ∈ aggregate (decompose ts cols) :=
  fun row => aggregate_redecompose_mem (decompose ts cols) row
